import Mathlib

/-!
Verification of the natural-language specification of the `ds202final`
repository (an ETL stage `dataFiles.py` plus a dashboard stage
`vast2022app.py`) against a shallow embedding of its code in Lean 4.

Conventions of the embedding:
* pandas DataFrames appear either as row lists (`List (List (Option α))`,
  one `Option` cell per column, `none` = null) or as column-oriented
  tables (`List (String × List CellValue)`), whichever the claim needs;
* fallible library calls (datetime parsing, `astype(float)`) are mapped
  to `Option`/`Except`-valued functions, `none`/`error` standing for a
  raised exception that aborts the stage;
* floating point values produced by `astype(float)` are represented
  exactly as scaled decimals (`FixedDec`, mantissa and number of
  fractional digits), since the source only ever parses decimal
  literals out of WKT point strings;
* machine integers do not overflow anywhere in the source (participant
  ids and counts), so `Nat`/`Int` are used directly.
-/

/-! ## Age-group bucketing (vast2022app.py line 19) -/

/-- Shallow embedding of `pd.cut(x, bins, labels)` with the pandas
default `right=True`: the bins are right-closed intervals
`(bins[i], bins[i+1]]`, and a value falling in no bin maps to `none`
(pandas `NaN`). -/
def pdCut (bins : List Int) (labels : List String) (x : Int) : Option String :=
  match bins, labels with
  | lo :: hi :: bs, lab :: ls =>
    if lo < x ∧ x ≤ hi then some lab else pdCut (hi :: bs) ls x
  | _, _ => none

/-- Embedding of line 19 of `vast2022app.py`:
`pd.cut(attributes["Participants.csv"]["age"], bins=[20, 30, 40, 50],
labels=["20-29", "30-39", "40-49"])` applied to one age value. -/
def ageGroup (age : Int) : Option String :=
  pdCut [20, 30, 40, 50] ["20-29", "30-39", "40-49"] age

/-! ## Discarded dropna calls (dataFiles.py lines 15-16, 22-23, 35-36) -/

/-- Embedding of `df.dropna()` on a row-oriented frame: the rows that
contain at least one null cell are removed in the RESULT, while the
receiver is left untouched (pandas `dropna` is not in-place). -/
def dropna (df : List (List (Option α))) : List (List (Option α)) :=
  df.filter (fun row => row.all (fun cell => cell.isSome))

/-- Embedding of lines 11-16 of `dataFiles.py`: the 72 per-shard CSVs
are concatenated (`pd.concat(..., ignore_index=True)`) and then
`dfParticipantStatusLogs.dropna()` is called WITHOUT using its result,
exactly as in the source; the concatenated frame is what flows on. -/
def loadStatusLogs (shards : List (List (List (Option α)))) : List (List (Option α)) :=
  let df := shards.flatten
  let _dropped := dropna df
  df

/-- Embedding of lines 22-23 (and identically 35-36) of `dataFiles.py`:
`for name, df in tables.items(): df.dropna()` — each per-table drop
result is computed and discarded, the mapping itself flows on. -/
def cleanTables (tables : List (String × List (List (Option α)))) :
    List (String × List (List (Option α))) :=
  tables.map (fun nt => let _dropped := dropna nt.2; nt)

/-! ## Page router (vast2022app.py lines 386-398) -/

/-- The four static page layouts of the dashboard, built once at
startup; routing only selects among these fixed objects. -/
inductive Page where
  | homePage
  | participantDashboardLayout
  | socialActivityDashboardLayout
  | businessDashboard
deriving DecidableEq

/-- Embedding of the `displayPage` callback (lines 390-398 of
`vast2022app.py`): an if/elif chain on the requested pathname with the
home page as the fallback. -/
def displayPage (pathname : String) : Page :=
  if pathname = "/participantDashboard" then Page.participantDashboardLayout
  else if pathname = "/socialActivityDashboard" then Page.socialActivityDashboardLayout
  else if pathname = "/businessDashboard" then Page.businessDashboard
  else Page.homePage

/-! ## Shared traversal combinator -/

/-- Applies a fallible function to every element; the whole traversal
fails (models a raised exception) as soon as one element fails. -/
def optionMapAll (f : α → Option β) : List α → Option (List β)
  | [] => some []
  | a :: l =>
    match f a, optionMapAll f l with
    | some b, some bs => some (b :: bs)
    | _, _ => none

/-! ## Strict timestamp parsing (dataFiles.py line 45) -/

/-- Calendar datetime value, the embedding of a pandas `Timestamp`
produced by a successful `pd.to_datetime` call. -/
structure DTime where
  year : Nat
  month : Nat
  day : Nat
  hour : Nat
  minute : Nat
  second : Nat
deriving DecidableEq

/-- Numeric value of a list of decimal digit characters. -/
def digitsToNat (ds : List Char) : Nat :=
  ds.foldl (fun a c => a * 10 + (c.toNat - 48)) 0

/-- Day count of a month, with the Gregorian leap-year rule, as used by
the calendar validation of `pd.to_datetime`. -/
def daysInMonth (y m : Nat) : Nat :=
  if m = 2 then
    if y % 4 = 0 ∧ (y % 100 ≠ 0 ∨ y % 400 = 0) then 29 else 28
  else if m = 4 ∨ m = 6 ∨ m = 9 ∨ m = 11 then 30
  else 31

/-- Textual shape of the explicit format string `%Y-%m-%dT%H:%M:%SZ`:
four year digits, two-digit month/day/hour/minute/second, with the
literal separators `-`, `T`, `:` and `Z` in the stated positions. -/
def timestampShape (s : String) : Bool :=
  match s.toList with
  | [y1, y2, y3, y4, '-', m1, m2, '-', d1, d2, 'T',
     h1, h2, ':', n1, n2, ':', s1, s2, 'Z'] =>
    [y1, y2, y3, y4, m1, m2, d1, d2, h1, h2, n1, n2, s1, s2].all Char.isDigit
  | _ => false

/-- Embedding of `pd.to_datetime(value, format="%Y-%m-%dT%H:%M:%SZ")`
on one cell: the value must match the format shape exactly and denote a
valid calendar instant, otherwise the parse raises (`none`). -/
def parseTimestampZ (s : String) : Option DTime :=
  if timestampShape s then
    match s.toList with
    | [y1, y2, y3, y4, '-', m1, m2, '-', d1, d2, 'T',
       h1, h2, ':', n1, n2, ':', s1, s2, 'Z'] =>
      let y := digitsToNat [y1, y2, y3, y4]
      let mo := digitsToNat [m1, m2]
      let d := digitsToNat [d1, d2]
      let h := digitsToNat [h1, h2]
      let mi := digitsToNat [n1, n2]
      let se := digitsToNat [s1, s2]
      if 1 ≤ mo ∧ mo ≤ 12 ∧ 1 ≤ d ∧ d ≤ daysInMonth y mo ∧
         h ≤ 23 ∧ mi ≤ 59 ∧ se ≤ 59 then
        some ⟨y, mo, d, h, mi, se⟩
      else none
    | _ => none
  else none

/-- Embedding of line 45 of `dataFiles.py`:
`pd.to_datetime(dfParticipantStatusLogs["timestamp"],
format="%Y-%m-%dT%H:%M:%SZ")` over the whole column, with the default
`errors="raise"`: one non-conforming value aborts the conversion. -/
def convertTimestampColumn (vs : List String) : Option (List DTime) :=
  optionMapAll parseTimestampZ vs

/-! ## Automatic time-column normalization (dataFiles.py lines 4-8, 26-29, 39-42) -/

/-- Cell value of a loaded table, as relevant to the time-column
normalization: CSV cells arrive as strings, numbers or nulls, and
`pd.to_datetime` turns them into datetimes (`vDT`) or `NaT` (a null of
datetime dtype, represented as `vNull` again). -/
inductive CellValue where
  | vNull
  | vInt (z : Int)
  | vStr (s : String)
  | vDT (d : DTime)
  | vBool (b : Bool)
deriving DecidableEq

/-- Column-oriented table: list of (column name, cell values). -/
abbrev Table : Type := List (String × List CellValue)

/-- Embedding of the Python test `"time" in col.lower()` (lines 27 and
40 of `dataFiles.py`): case-insensitive substring search. -/
def containsTime (s : String) : Bool :=
  (s.toList.map Char.toLower).tails.any (fun t => "time".toList.isPrefixOf t)

/-- Date-only shape `YYYY-MM-DD`, one of the layouts the automatic
format inference of `pd.to_datetime` accepts. -/
def parseDateOnly (s : String) : Option DTime :=
  match s.toList with
  | [y1, y2, y3, y4, '-', m1, m2, '-', d1, d2] =>
    if [y1, y2, y3, y4, m1, m2, d1, d2].all Char.isDigit then
      let y := digitsToNat [y1, y2, y3, y4]
      let mo := digitsToNat [m1, m2]
      let d := digitsToNat [d1, d2]
      if 1 ≤ mo ∧ mo ≤ 12 ∧ 1 ≤ d ∧ d ≤ daysInMonth y mo then
        some ⟨y, mo, d, 0, 0, 0⟩
      else none
    else none
  | _ => none

/-- Model of the automatic format inference of `pd.to_datetime(col)`
(no explicit format, lines 4-8 of `dataFiles.py`) on a string cell: the
ISO datetime and date-only layouts are accepted; anything else raises. -/
def inferDatetime (s : String) : Option DTime :=
  (parseTimestampZ s).orElse (fun _ => parseDateOnly s)

/-- Coercion of one cell by `pd.to_datetime`: datetimes pass through,
nulls become `NaT` (still a null of datetime dtype), strings go through
format inference, and a value that cannot be coerced raises (`none`;
epoch-number coercion is not modelled, the time columns of these CSVs
are textual). -/
def coerceDatetime : CellValue → Option CellValue
  | CellValue.vDT d => some (CellValue.vDT d)
  | CellValue.vNull => some CellValue.vNull
  | CellValue.vStr s => (inferDatetime s).map CellValue.vDT
  | _ => none

/-- Values a datetime64 column can hold: datetimes and `NaT`. -/
def isDatetimeLike : CellValue → Bool
  | CellValue.vDT _ => true
  | CellValue.vNull => true
  | _ => false

/-- Embedding of `df[col] = pd.to_datetime(df[col])` (line 7 of
`dataFiles.py`): every column named `col` has its cells coerced, the
others are untouched; a failing cell aborts the assignment. -/
def coerceColumn (t : Table) (col : String) : Option Table :=
  optionMapAll
    (fun c =>
      if c.1 = col then (optionMapAll coerceDatetime c.2).map (fun vs => (c.1, vs))
      else some c)
    t

/-- Loop body of `convertToDatetime` (lines 5-7 of `dataFiles.py`):
each requested column that exists in the table is coerced in turn. -/
def convertCols : List String → Table → Option Table
  | [], t => some t
  | col :: rest, t =>
    if t.any (fun c => c.1 = col) then
      match coerceColumn t col with
      | some t1 => convertCols rest t1
      | none => none
    else convertCols rest t

/-- Embedding of the function `convertToDatetime(df, columns)` of
`dataFiles.py` (lines 4-8). -/
def convertToDatetime (df : Table) (columns : List String) : Option Table :=
  convertCols columns df

/-- Embedding of the per-table normalization loop (lines 26-29, and
identically 39-42, of `dataFiles.py`): collect the column names that
contain "time" case-insensitively and coerce them; the rebind of the
loop variable is immaterial because the column assignments mutate the
shared table in place. -/
def normalizeTable (df : Table) : Option Table :=
  let timeColumns := (df.map (fun c => c.1)).filter containsTime
  if timeColumns.isEmpty then some df else convertToDatetime df timeColumns

/-- Verification predicate: every cell of every column of `t` named
`col` is datetime-like. -/
def colFullyDT (t : Table) (col : String) : Prop :=
  ∀ p ∈ t, p.1 = col → ∀ v ∈ p.2, isDatetimeLike v = true

/-! ## Social graph aggregation (vast2022app.py lines 23-39) -/

/-- One directed communication event of `SocialNetwork.csv`, the pair
`(participantIdFrom, participantIdTo)`. -/
abbrev Event : Type := Nat × Nat

/-- Lexicographic ascending order on the two-part group key of
`groupby(['participantIdFrom', 'participantIdTo'])`; pandas `groupby`
sorts its group keys ascending by default. -/
def pairLe (a b : Event) : Bool :=
  decide (a.1 < b.1 ∨ (a.1 = b.1 ∧ a.2 ≤ b.2))

/-- Ascending order on the single group key of
`groupby('participantIdFrom')`. -/
def natLe (a b : Nat) : Bool := decide (a ≤ b)

/-- Ordered insertion into a list that is ascending by `le`. -/
def insertAsc (le : α → α → Bool) (x : α) : List α → List α
  | [] => [x]
  | h :: t => if le h x then h :: insertAsc le x t else x :: h :: t

/-- Insertion sort; models the ascending key order `groupby` emits. -/
def sortAsc (le : α → α → Bool) (l : List α) : List α :=
  l.foldr (insertAsc le) []

/-- Occurrence count of one (from, to) key among the events: the
`size()` of its group. -/
def countOcc (e : Event) (l : List Event) : Nat :=
  (l.filter (fun x => x = e)).length

/-- Embedding of line 23 of `vast2022app.py`: group the communication
events by (from, to) pair and count occurrences as the edge weight;
one row `(from, to, weight)` per distinct key, keys ascending. -/
def edgesWithFrequency (events : List Event) : List (Nat × Nat × Nat) :=
  (sortAsc pairLe events.dedup).map (fun e => (e.1, e.2, countOcc e events))

/-- One cell of the `groupby('participantIdFrom')['weight'].sum()`
aggregation of line 26: the total outgoing weight of a sender. -/
def outWeight (events : List Event) (p : Nat) : Nat :=
  (((edgesWithFrequency events).filter (fun e => e.1 = p)).map (fun e => e.2.2)).sum

/-- Embedding of line 26 of `vast2022app.py`: one row
`(participantId, totalWeight)` per sender, keys ascending. -/
def participantInteractions (events : List Event) : List (Nat × Nat) :=
  (sortAsc natLe ((edgesWithFrequency events).map (fun e => e.1)).dedup).map
    (fun p => (p, outWeight events p))

/-- Stable insertion, descending by the weight component: an incoming
row moves past strictly heavier rows only, so among equal weights the
earlier row stays first. -/
def insertWDesc (x : Nat × Nat) : List (Nat × Nat) → List (Nat × Nat)
  | [] => [x]
  | h :: t => if x.2 < h.2 then h :: insertWDesc x t else x :: h :: t

/-- Stable descending sort by weight: the embedding of
`DataFrame.nlargest(n, 'totalWeight')` (default `keep='first'`) is the
first `n` rows of this list. -/
def sortWDesc (l : List (Nat × Nat)) : List (Nat × Nat) :=
  l.foldr insertWDesc []

/-- Embedding of line 29 of `vast2022app.py`:
`participantInteractions.nlargest(10, 'totalWeight')['participantId']`. -/
def topParticipants (events : List Event) : List Nat :=
  ((sortWDesc (participantInteractions events)).take 10).map (fun x => x.1)

/-- Embedding of lines 32-36 of `vast2022app.py`: keep the edges whose
`participantIdFrom` or `participantIdTo` is a top participant (`isin`),
then keep the edges of weight strictly greater than 200. -/
def filteredEdges (events : List Event) : List (Nat × Nat × Nat) :=
  ((edgesWithFrequency events).filter
      (fun e => e.1 ∈ topParticipants events ∨ e.2.1 ∈ topParticipants events)).filter
    (fun e => 200 < e.2.2)

/-- Embedding of line 39 of `vast2022app.py`:
`set(filteredEdges['participantIdFrom']).union(set(filteredEdges['participantIdTo']))`. -/
def nodes (events : List Event) : Finset Nat :=
  ((filteredEdges events).map (fun e => e.1)).toFinset ∪
    ((filteredEdges events).map (fun e => e.2.1)).toFinset

/-- Selection order realized by the top-10 computation: strictly
heavier rows first, equal weights broken by ascending participant id. -/
def topOrder (a b : Nat × Nat) : Prop :=
  b.2 < a.2 ∨ (a.2 = b.2 ∧ a.1 ≤ b.1)

/-! ## Building location parsing (vast2022app.py lines 56-78) -/

/-- Character set of the Python call `str.strip("POINT ()")` on line 71
of `vast2022app.py`; Python strips CHARACTERS of this set from both
ends, not the literal wrapper text. -/
def stripSet : List Char := "POINT ()".toList

/-- Characters that can occur in a decimal float literal. -/
def isFloatChar (c : Char) : Bool :=
  c = '-' || c = '.' || c.isDigit

/-- Embedding of Python `s.strip(chars)`: drop members of the
character set from both ends. -/
def pyStrip (chars : List Char) (cs : List Char) : List Char :=
  ((cs.dropWhile (fun c => decide (c ∈ chars))).reverse.dropWhile
    (fun c => decide (c ∈ chars))).reverse

/-- Embedding of Python `s.split(sep)` for a one-character separator
(lines 74-75 use `.str.split(" ")`): empty fields are kept. -/
def splitOnChar (sep : Char) (cs : List Char) : List (List Char) :=
  cs.foldr
    (fun c acc =>
      if c = sep then [] :: acc
      else
        match acc with
        | t :: ts => (c :: t) :: ts
        | [] => [[c]])
    [[]]

/-- Exact scaled-decimal representation of the float that
`astype(float)` produces from a decimal literal: the represented value
is `mantissa / 10 ^ scale`. -/
structure FixedDec where
  mantissa : Int
  scale : Nat
deriving DecidableEq

/-- Unsigned decimal literal: digits, optionally a dot and more
digits, with at least one digit overall; yields (scaled mantissa,
number of fractional digits). -/
def parseFloatCore (cs : List Char) : Option (Nat × Nat) :=
  match cs.dropWhile Char.isDigit with
  | [] =>
    if (cs.takeWhile Char.isDigit).isEmpty then none
    else some (digitsToNat (cs.takeWhile Char.isDigit), 0)
  | c :: fpart =>
    if c = '.' ∧ fpart.all Char.isDigit = true ∧
        ((cs.takeWhile Char.isDigit).isEmpty = false ∨ fpart.isEmpty = false) then
      some (digitsToNat (cs.takeWhile Char.isDigit) * 10 ^ fpart.length +
        digitsToNat fpart, fpart.length)
    else none

/-- Embedding of Python `float(token)` for the token shapes occurring
in WKT point strings: an optional leading minus then a decimal
literal; anything else raises. -/
def parseFloat (cs : List Char) : Option FixedDec :=
  match cs with
  | [] => none
  | c :: rest =>
    if c = '-' then (parseFloatCore rest).map (fun mv => ⟨-(mv.1 : Int), mv.2⟩)
    else (parseFloatCore (c :: rest)).map (fun mv => ⟨(mv.1 : Int), mv.2⟩)

/-- Embedding of `.str[i].astype(float)` on one row's token list: a
missing token is pandas `NaN` (a null float, `ok none`); a present
token must parse as a float, otherwise the conversion raises. -/
def astypeFloatTok (toks : List (List Char)) (i : Nat) : Except Unit (Option FixedDec) :=
  match toks[i]? with
  | none => Except.ok none
  | some t =>
    match parseFloat t with
    | some v => Except.ok (some v)
    | none => Except.error ()

/-- Except-valued traversal; one failing element aborts the column. -/
def exceptMapAll (f : α → Except Unit β) : List α → Except Unit (List β)
  | [] => Except.ok []
  | a :: l =>
    match f a, exceptMapAll f l with
    | Except.ok b, Except.ok bs => Except.ok (b :: bs)
    | _, _ => Except.error ()

/-- One row of the final building-location table (line 78). -/
structure BuildingRow where
  x : Option FixedDec
  y : Option FixedDec
  buildingType : String
deriving DecidableEq

/-- Embedding of lines 56-68 of `vast2022app.py`: take the `location`
column of the four building tables, tag each row with its building
type, and concatenate. -/
def combinedTagged (apartments pubs restaurants schools : List String) :
    List (String × String) :=
  apartments.map (fun s => (s, "apartment")) ++ pubs.map (fun s => (s, "pub")) ++
    restaurants.map (fun s => (s, "restaurant")) ++ schools.map (fun s => (s, "school"))

/-- Cleaning and splitting of one location string (lines 71, 74-75):
strip the `"POINT ()"` character set from both ends, then split on the
space character. -/
def locToks (loc : String) : List (List Char) :=
  splitOnChar ' ' (pyStrip stripSet loc.toList)

/-- Embedding of lines 56-78 of `vast2022app.py`: build the combined
tagged table, clean the location strings, extract the x column and
then the y column with `astype(float)` (a failing parse raises and
aborts the stage), and keep `x`, `y`, `buildingType`. -/
def finalDf (apartments pubs restaurants schools : List String) :
    Except Unit (List BuildingRow) :=
  let comb := combinedTagged apartments pubs restaurants schools
  let toks := comb.map (fun lp => locToks lp.1)
  do
    let xs ← exceptMapAll (fun t => astypeFloatTok t 0) toks
    let ys ← exceptMapAll (fun t => astypeFloatTok t 1) toks
    pure (List.zipWith (fun xv yb => BuildingRow.mk xv yb.1 yb.2)
      xs (ys.zip (comb.map (fun lp => lp.2))))

/-- Well-formed WKT point wrapper around two coordinate tokens: the
location-string shape named by the claim. -/
def pointWrapper (sx sy : List Char) : String :=
  String.mk ("POINT (".toList ++ sx ++ ' ' :: sy ++ [')'])

/-! ## Cache snapshot round-trip (dataFiles.py lines 48-56, vast2022app.py lines 10-15) -/

/-- Column dtype that the cache snapshot must preserve losslessly. -/
inductive Dtype where
  | object
  | int64
  | float64
  | datetime64
  | boolean
deriving DecidableEq

/-- Token of the serialized snapshot stream. -/
inductive Token where
  | tN (n : Nat)
  | tI (z : Int)
  | tS (s : String)
deriving DecidableEq

/-- Numeric code of a dtype in the snapshot stream. -/
def dtypeCode : Dtype → Nat
  | Dtype.object => 0
  | Dtype.int64 => 1
  | Dtype.float64 => 2
  | Dtype.datetime64 => 3
  | Dtype.boolean => 4

/-- Inverse of `dtypeCode`. -/
def dtypeOfCode : Nat → Option Dtype
  | 0 => some Dtype.object
  | 1 => some Dtype.int64
  | 2 => some Dtype.float64
  | 3 => some Dtype.datetime64
  | 4 => some Dtype.boolean
  | _ => none

/-- Serialization of one cell value, datetime fields included. -/
def encodeValue : CellValue → List Token
  | CellValue.vNull => [Token.tN 0]
  | CellValue.vInt z => [Token.tN 1, Token.tI z]
  | CellValue.vStr s => [Token.tN 2, Token.tS s]
  | CellValue.vDT d => [Token.tN 3, Token.tN d.year, Token.tN d.month, Token.tN d.day,
      Token.tN d.hour, Token.tN d.minute, Token.tN d.second]
  | CellValue.vBool b => [Token.tN 4, Token.tN (if b then 1 else 0)]

/-- Deserialization of one cell value; returns the remaining stream. -/
def decodeValue : List Token → Option (CellValue × List Token)
  | Token.tN 0 :: ts => some (CellValue.vNull, ts)
  | Token.tN 1 :: Token.tI z :: ts => some (CellValue.vInt z, ts)
  | Token.tN 2 :: Token.tS s :: ts => some (CellValue.vStr s, ts)
  | Token.tN 3 :: Token.tN y :: Token.tN mo :: Token.tN d :: Token.tN h ::
      Token.tN mi :: Token.tN se :: ts => some (CellValue.vDT ⟨y, mo, d, h, mi, se⟩, ts)
  | Token.tN 4 :: Token.tN b :: ts => some (CellValue.vBool (b == 1), ts)
  | _ => none

/-- Serialization of a row's cell values. -/
def encodeValues : List CellValue → List Token
  | [] => []
  | v :: vs => encodeValue v ++ encodeValues vs

/-- Deserialization of a known number of cell values. -/
def decodeValues : Nat → List Token → Option (List CellValue × List Token)
  | 0, ts => some ([], ts)
  | n + 1, ts =>
    (decodeValue ts).bind (fun vt =>
      (decodeValues n vt.2).map (fun vst => (vt.1 :: vst.1, vst.2)))

/-- Serialization of the rows, each prefixed by its cell count. -/
def encodeRows : List (List CellValue) → List Token
  | [] => []
  | r :: rs => Token.tN r.length :: (encodeValues r ++ encodeRows rs)

/-- Deserialization of a known number of rows. -/
def decodeRows : Nat → List Token → Option (List (List CellValue) × List Token)
  | 0, ts => some ([], ts)
  | n + 1, Token.tN len :: ts =>
    (decodeValues len ts).bind (fun rt =>
      (decodeRows n rt.2).map (fun rst => (rt.1 :: rst.1, rst.2)))
  | _ + 1, _ => none

/-- Serialization of the column headers: name and dtype, in order. -/
def encodeCols : List (String × Dtype) → List Token
  | [] => []
  | c :: cs => Token.tS c.1 :: Token.tN (dtypeCode c.2) :: encodeCols cs

/-- Deserialization of a known number of column headers. -/
def decodeCols : Nat → List Token → Option (List (String × Dtype) × List Token)
  | 0, ts => some ([], ts)
  | n + 1, Token.tS s :: Token.tN k :: ts =>
    (dtypeOfCode k).bind (fun dt =>
      (decodeCols n ts).map (fun ct => ((s, dt) :: ct.1, ct.2)))
  | _ + 1, _ => none

/-- In-memory table as pickled: ordered column headers with dtypes
(datetime included) and the row values. -/
structure PickledTable where
  cols : List (String × Dtype)
  rows : List (List CellValue)
deriving DecidableEq

/-- Modelled from the spec: `DataFrame.to_pickle` (lines 48-56 of
`dataFiles.py`). The pandas pickle serializer is external library
code, so the snapshot format is modelled from the contract of the
spec (§4.2, §8): a self-describing stream recording the column order,
every column dtype and every row value. -/
def writeSnapshot (t : PickledTable) : List Token :=
  Token.tN t.cols.length ::
    (encodeCols t.cols ++ Token.tN t.rows.length :: encodeRows t.rows)

/-- Modelled from the spec: `pd.read_pickle` (lines 10-15 of
`vast2022app.py`), the inverse reader of the snapshot stream; a
malformed or incomplete stream yields `none`. -/
def readSnapshot (ts : List Token) : Option PickledTable :=
  match ts with
  | Token.tN nc :: ts1 =>
    (decodeCols nc ts1).bind (fun ct =>
      match ct.2 with
      | Token.tN nr :: ts3 =>
        (decodeRows nr ts3).bind (fun rt =>
          match rt.2 with
          | [] => some ⟨ct.1, rt.1⟩
          | _ => none)
      | _ => none)
  | _ => none

/-! ## Theorems -/

/-! ### Helper lemmas about the shared traversal -/

theorem optionMapAll_isSome_iff (f : α → Option β) (l : List α) :
    (optionMapAll f l).isSome ↔ ∀ a ∈ l, (f a).isSome := by
  induction l with
  | nil => simp [optionMapAll]
  | cons a l ih =>
    simp only [optionMapAll, List.mem_cons]
    cases hfa : f a with
    | none => simp [hfa]
    | some b =>
      cases hml : optionMapAll f l with
      | none => simp [hml, ← ih]
      | some bs =>
        simp only [Option.isSome_some, true_iff]
        intro x hx
        rcases hx with hx | hx
        · subst hx; simp [hfa]
        · exact (ih.mp (by simp [hml])) x hx

theorem optionMapAll_eq_none_of (f : α → Option β) {l : List α} {a : α}
    (hmem : a ∈ l) (hfa : f a = none) : optionMapAll f l = none := by
  induction l with
  | nil => cases hmem
  | cons x l ih =>
    rcases List.mem_cons.mp hmem with h | h
    · subst h; simp [optionMapAll, hfa]
    · simp only [optionMapAll]
      rw [ih h]
      cases f x <;> rfl

theorem optionMapAll_mem (f : α → Option β) {l : List α} {l' : List β}
    (h : optionMapAll f l = some l') :
    ∀ b ∈ l', ∃ a ∈ l, f a = some b := by
  induction l generalizing l' with
  | nil =>
    simp only [optionMapAll] at h
    cases h; simp
  | cons x l ih =>
    simp only [optionMapAll] at h
    cases hfx : f x with
    | none => rw [hfx] at h; cases h
    | some b0 =>
      rw [hfx] at h
      cases hml : optionMapAll f l with
      | none => rw [hml] at h; cases h
      | some bs =>
        rw [hml] at h
        cases h
        intro b hb
        rcases List.mem_cons.mp hb with hb | hb
        · exact ⟨x, List.mem_cons_self x l, by rw [hfx, hb]⟩
        · rcases ih hml b hb with ⟨a, ha, hfa⟩
          exact ⟨a, List.mem_cons_of_mem x ha, hfa⟩

/-- C1. The claim (and the labels in the source itself) demand the
half-open buckets `[20,30) [30,40) [40,50)`, but `pd.cut` defaults to
`right=True`, producing `(20,30] (30,40] (40,50]`: age 20 falls in no
bucket, age 30 is labeled `"20-29"` and age 50 is labeled `"40-49"`,
contradicting the bucket labels the code itself attaches. -/
theorem C1_age_bucketing_code_bug :
    ageGroup 19 = none ∧ ageGroup 20 = none ∧
    ageGroup 29 = some "20-29" ∧ ageGroup 30 = some "20-29" ∧
    ageGroup 49 = some "40-49" ∧ ageGroup 50 = some "40-49" := by
  decide

/-- C2. Every drop-nulls cleaning call of the ETL stage discards its
result: the concatenated status log and every table of the attribute
and journal mappings flow on unchanged, so a row containing a null cell
is still present in the table that is serialized, even though the
(discarded) `dropna` result does remove it. -/
theorem C2_dropna_discarded {α : Type}
    (shards : List (List (List (Option α))))
    (tables : List (String × List (List (Option α)))) :
    loadStatusLogs shards = shards.flatten ∧
    cleanTables tables = tables ∧
    ∀ row ∈ shards.flatten, row.all (fun cell => cell.isSome) = false →
      row ∈ loadStatusLogs shards ∧ row ∉ dropna shards.flatten := by
  refine ⟨rfl, ?_, ?_⟩
  · simp [cleanTables]
  · intro row hmem hnull
    refine ⟨hmem, ?_⟩
    intro hin
    have := (List.mem_filter.mp hin).2
    simp [hnull] at this

/-- C2 witness: a concrete shard list containing a null row; the row
survives loading and would have been removed by the discarded call. -/
theorem C2_dropna_discarded_witness :
    ([(none : Option Nat)].all (fun cell => cell.isSome) = false) ∧
    [(none : Option Nat)] ∈ loadStatusLogs [[[some 0], [none]]] ∧
    [(none : Option Nat)] ∉ dropna (List.flatten [[[some 0], [none]]]) :=
  ⟨by decide,
   (C2_dropna_discarded [[[some 0], [none]]] []).2.2 [none] (by decide) (by decide)⟩

/-- C9. The page router returns the participant, social-activity and
business layouts for their three dedicated paths, and the home layout
for the root path and for every other path; it is a pure function of
the requested pathname into the four fixed startup layouts. -/
theorem C9_page_router :
    displayPage "/participantDashboard" = Page.participantDashboardLayout ∧
    displayPage "/socialActivityDashboard" = Page.socialActivityDashboardLayout ∧
    displayPage "/businessDashboard" = Page.businessDashboard ∧
    displayPage "/" = Page.homePage ∧
    ∀ p : String, p ≠ "/participantDashboard" → p ≠ "/socialActivityDashboard" →
      p ≠ "/businessDashboard" → displayPage p = Page.homePage := by
  refine ⟨rfl, rfl, rfl, rfl, ?_⟩
  intro p h1 h2 h3
  simp [displayPage, h1, h2, h3]

/-- C9 witness: the unknown path of the spec test falls back to the
home page. -/
theorem C9_page_router_witness :
    displayPage "/unknown" = Page.homePage :=
  C9_page_router.2.2.2.2 "/unknown" (by decide) (by decide) (by decide)

theorem optionMapAll_mem_forward (f : α → Option β) {l : List α} {l' : List β}
    (h : optionMapAll f l = some l') :
    ∀ a ∈ l, ∃ b ∈ l', f a = some b := by
  induction l generalizing l' with
  | nil => simp
  | cons x l ih =>
    simp only [optionMapAll] at h
    cases hfx : f x with
    | none => rw [hfx] at h; cases h
    | some b0 =>
      rw [hfx] at h
      cases hml : optionMapAll f l with
      | none => rw [hml] at h; cases h
      | some bs =>
        rw [hml] at h
        cases h
        intro a ha
        rcases List.mem_cons.mp ha with ha | ha
        · exact ⟨b0, List.mem_cons_self b0 bs, by rw [ha, hfx]⟩
        · rcases ih hml a ha with ⟨b, hb, hfb⟩
          exact ⟨b, List.mem_cons_of_mem b0 hb, hfb⟩

theorem optionMapAll_map_eq (f : α → Option β) (g1 : α → γ) (g2 : β → γ)
    {l : List α} {l' : List β} (h : optionMapAll f l = some l')
    (hg : ∀ a b, f a = some b → g2 b = g1 a) :
    l'.map g2 = l.map g1 := by
  induction l generalizing l' with
  | nil => simp only [optionMapAll] at h; cases h; rfl
  | cons x l ih =>
    simp only [optionMapAll] at h
    cases hfx : f x with
    | none => rw [hfx] at h; cases h
    | some b0 =>
      rw [hfx] at h
      cases hml : optionMapAll f l with
      | none => rw [hml] at h; cases h
      | some bs =>
        rw [hml] at h
        cases h
        simp only [List.map_cons]
        rw [hg x b0 hfx, ih hml]

/-! ### C7: strict timestamp format -/

theorem parseTimestampZ_shape {s : String} {d : DTime}
    (h : parseTimestampZ s = some d) : timestampShape s = true := by
  by_cases hs : timestampShape s = true
  · exact hs
  · rw [parseTimestampZ, if_neg (by simpa using hs)] at h
    cases h

/-- C7. The status-log `timestamp` column conversion succeeds exactly
when every value parses under the explicit format
`%Y-%m-%dT%H:%M:%SZ`, and one value that does not even have the shape
of that format makes the whole conversion raise (`none`), aborting the
ETL stage. -/
theorem C7_timestamp_format_fails_loudly (vs : List String) :
    ((convertTimestampColumn vs).isSome ↔ ∀ v ∈ vs, (parseTimestampZ v).isSome) ∧
    ∀ v ∈ vs, timestampShape v = false → convertTimestampColumn vs = none := by
  refine ⟨optionMapAll_isSome_iff _ _, ?_⟩
  intro v hv hshape
  apply optionMapAll_eq_none_of _ hv
  cases hp : parseTimestampZ v with
  | none => rfl
  | some d => rw [parseTimestampZ_shape hp] at hshape; cases hshape

/-- C7 witness: a column with one conforming and one non-conforming
value (space instead of `T`) fails as a whole. -/
theorem C7_timestamp_format_fails_loudly_witness :
    ("2022-03-01 08:00:00" ∈ ["2022-03-01T08:00:00Z", "2022-03-01 08:00:00"]) ∧
    timestampShape "2022-03-01 08:00:00" = false ∧
    convertTimestampColumn ["2022-03-01T08:00:00Z", "2022-03-01 08:00:00"] = none :=
  ⟨by decide, by decide,
   (C7_timestamp_format_fails_loudly _).2 "2022-03-01 08:00:00" (by decide) (by decide)⟩

/-! ### C8: time columns hold datetimes after normalization -/

theorem coerceDatetime_isDatetimeLike {v v' : CellValue}
    (h : coerceDatetime v = some v') : isDatetimeLike v' = true := by
  cases v with
  | vNull => cases h; rfl
  | vDT d => cases h; rfl
  | vInt z => simp [coerceDatetime] at h
  | vBool b => simp [coerceDatetime] at h
  | vStr s =>
    simp only [coerceDatetime, Option.map_eq_some'] at h
    rcases h with ⟨d, _, hd⟩
    rw [← hd]
    rfl

theorem coerceEntry_cases {col : String} {a b : String × List CellValue}
    (h : (if a.1 = col then
            (optionMapAll coerceDatetime a.2).map (fun vs => (a.1, vs))
          else some a) = some b) :
    (a.1 = col ∧ b.1 = a.1 ∧ ∀ v ∈ b.2, isDatetimeLike v = true) ∨
    (a.1 ≠ col ∧ b = a) := by
  by_cases hac : a.1 = col
  · left
    rw [if_pos hac] at h
    rcases Option.map_eq_some'.mp h with ⟨vs, hvs, hb⟩
    refine ⟨hac, by rw [← hb], ?_⟩
    intro v hvmem
    rw [← hb] at hvmem
    rcases optionMapAll_mem coerceDatetime hvs v hvmem with ⟨w, _, hw⟩
    exact coerceDatetime_isDatetimeLike hw
  · right
    rw [if_neg hac] at h
    cases h
    exact ⟨hac, rfl⟩

theorem coerceColumn_spec {t t' : Table} {col : String}
    (h : coerceColumn t col = some t') :
    t'.map (fun c => c.1) = t.map (fun c => c.1) ∧
    colFullyDT t' col ∧
    (∀ c, colFullyDT t c → colFullyDT t' c) ∧
    (∀ p ∈ t, p.1 ≠ col → p ∈ t') := by
  refine ⟨?_, ?_, ?_, ?_⟩
  · exact optionMapAll_map_eq _ _ _ h
      (fun a b hab => by
        rcases coerceEntry_cases hab with ⟨_, hb, _⟩ | ⟨_, hb⟩
        · exact hb
        · rw [hb])
  · intro p hp hpcol v hv
    rcases optionMapAll_mem _ h p hp with ⟨a, _, hab⟩
    rcases coerceEntry_cases hab with ⟨_, _, hdt⟩ | ⟨hne, hb⟩
    · exact hdt v hv
    · rw [hb] at hpcol; exact absurd hpcol hne
  · intro c hfull p hp hpc v hv
    rcases optionMapAll_mem _ h p hp with ⟨a, ha, hab⟩
    rcases coerceEntry_cases hab with ⟨_, _, hdt⟩ | ⟨_, hb⟩
    · exact hdt v hv
    · rw [hb] at hpc hv
      exact hfull a ha hpc v hv
  · intro p hp hpne
    rcases optionMapAll_mem_forward _ h p hp with ⟨b, hb, hab⟩
    rcases coerceEntry_cases hab with ⟨hcol, _, _⟩ | ⟨_, hba⟩
    · exact absurd hcol hpne
    · rw [← hba]; exact hb

theorem convertCols_spec :
    ∀ (columns : List String) (t t' : Table), convertCols columns t = some t' →
      (t'.map (fun c => c.1) = t.map (fun c => c.1)) ∧
      (∀ c, colFullyDT t c → colFullyDT t' c) ∧
      (∀ c ∈ columns, (∃ p ∈ t, p.1 = c) → colFullyDT t' c) := by
  intro columns
  induction columns with
  | nil =>
    intro t t' h
    simp only [convertCols] at h
    cases h
    exact ⟨rfl, fun _ hc => hc, by simp⟩
  | cons col rest ih =>
    intro t t' h
    simp only [convertCols] at h
    by_cases hany : t.any (fun c => c.1 = col) = true
    · rw [if_pos (by simpa using hany)] at h
      cases hcc : coerceColumn t col with
      | none => rw [hcc] at h; cases h
      | some t1 =>
        rw [hcc] at h
        rcases coerceColumn_spec hcc with ⟨hnames1, hfull1, hpres1, _⟩
        rcases ih t1 t' h with ⟨hnames2, hpres2, hcols2⟩
        have hnames : t'.map (fun c => c.1) = t.map (fun c => c.1) := by
          rw [hnames2, hnames1]
        refine ⟨hnames, fun c hc => hpres2 c (hpres1 c hc), ?_⟩
        intro c hc hex
        rcases List.mem_cons.mp hc with hc | hc
        · subst hc
          exact hpres2 _ hfull1
        · apply hcols2 c hc
          rcases hex with ⟨p, hp, hpc⟩
          have : c ∈ t1.map (fun c => c.1) := by
            rw [hnames1, ← hpc]
            exact List.mem_map_of_mem _ hp
          rcases List.mem_map.mp this with ⟨q, hq, hqc⟩
          exact ⟨q, hq, hqc⟩
    · rw [if_neg (by simpa using hany)] at h
      rcases ih t t' h with ⟨hnames, hpres, hcols⟩
      refine ⟨hnames, hpres, ?_⟩
      intro c hc hex
      rcases List.mem_cons.mp hc with hc | hc
      · subst hc
        rcases hex with ⟨p, hp, hpc⟩
        exact absurd (List.any_eq_true.mpr ⟨p, hp, by simpa using hpc⟩) hany
      · exact hcols c hc hex

theorem convertCols_err :
    ∀ (columns : List String) (t : Table) (p : String × List CellValue)
      (v : CellValue), p ∈ t → v ∈ p.2 → coerceDatetime v = none →
      p.1 ∈ columns → convertCols columns t = none := by
  intro columns
  induction columns with
  | nil => intro t p v _ _ _ hcol; cases hcol
  | cons col rest ih =>
    intro t p v hp hv hbad hcol
    simp only [convertCols]
    by_cases heq : p.1 = col
    · have hany : t.any (fun c => c.1 = col) = true :=
        List.any_eq_true.mpr ⟨p, hp, by simpa using heq⟩
      rw [if_pos (by simpa using hany)]
      have hvals : optionMapAll coerceDatetime p.2 = none :=
        optionMapAll_eq_none_of _ hv hbad
      have hentry :
          (if p.1 = col then
             (optionMapAll coerceDatetime p.2).map (fun vs => (p.1, vs))
           else some p) = none := by
        rw [if_pos heq, hvals]; rfl
      have hcc : coerceColumn t col = none :=
        optionMapAll_eq_none_of _ hp hentry
      rw [hcc]
    · have hrest : p.1 ∈ rest := by
        rcases List.mem_cons.mp hcol with hc | hc
        · exact absurd hc heq
        · exact hc
      by_cases hany : t.any (fun c => c.1 = col) = true
      · rw [if_pos (by simpa using hany)]
        cases hcc : coerceColumn t col with
        | none => rfl
        | some t1 =>
          have hp1 : p ∈ t1 := (coerceColumn_spec hcc).2.2.2 p hp heq
          exact ih t1 p v hp1 hv hbad hrest
      · rw [if_neg (by simpa using hany)]
        exact ih t p v hp hv hbad hrest

/-- C8. If the per-table time-column normalization succeeds, every
column whose name contains "time" case-insensitively holds only
datetime-like values (datetimes or `NaT`); and if some cell of such a
column cannot be coerced, the normalization raises (`none`). -/
theorem C8_time_columns_normalized (df : Table) :
    (∀ df', normalizeTable df = some df' →
      ∀ p ∈ df', containsTime p.1 = true → ∀ v ∈ p.2, isDatetimeLike v = true) ∧
    (∀ p ∈ df, containsTime p.1 = true → ∀ v ∈ p.2, coerceDatetime v = none →
      normalizeTable df = none) := by
  constructor
  · intro df' hnorm p hp htime v hv
    simp only [normalizeTable] at hnorm
    by_cases hemp : ((df.map (fun c => c.1)).filter containsTime).isEmpty = true
    · rw [if_pos (by simpa using hemp)] at hnorm
      cases hnorm
      have : p.1 ∈ (df.map (fun c => c.1)).filter containsTime :=
        List.mem_filter.mpr ⟨List.mem_map_of_mem _ hp, htime⟩
      rw [List.isEmpty_iff.mp hemp] at this
      cases this
    · rw [if_neg (by simpa using hemp)] at hnorm
      rcases convertCols_spec _ _ _ hnorm with ⟨hnames, _, hcols⟩
      have hmem : p.1 ∈ df.map (fun c => c.1) := by
        rw [← hnames]
        exact List.mem_map_of_mem _ hp
      rcases List.mem_map.mp hmem with ⟨q, hq, hqc⟩
      exact hcols p.1 (List.mem_filter.mpr ⟨hmem, htime⟩) ⟨q, hq, hqc⟩ p hp rfl v hv
  · intro p hp htime v hv hbad
    simp only [normalizeTable]
    have htc : p.1 ∈ (df.map (fun c => c.1)).filter containsTime :=
      List.mem_filter.mpr ⟨List.mem_map_of_mem _ hp, htime⟩
    have hne : ((df.map (fun c => c.1)).filter containsTime).isEmpty = false := by
      rcases h : (df.map (fun c => c.1)).filter containsTime with _ | _
      · rw [h] at htc; cases htc
      · rw [h]; rfl
    rw [if_neg (by simp [hne])]
    exact convertCols_err _ df p v hp hv hbad htc

/-- C8 witness: a table with a "time" column containing a value the
model cannot coerce makes the normalization raise. -/
theorem C8_time_columns_normalized_witness :
    containsTime "time" = true ∧
    coerceDatetime (CellValue.vInt 3) = none ∧
    normalizeTable [("time", [CellValue.vInt 3])] = none :=
  ⟨by decide, by decide,
   (C8_time_columns_normalized _).2 ("time", [CellValue.vInt 3])
     (by decide) (by decide) (CellValue.vInt 3) (by decide) (by decide)⟩

/-! ### Sorting helper lemmas -/

theorem mem_insertAsc (le : α → α → Bool) (x : α) (l : List α) (a : α) :
    a ∈ insertAsc le x l ↔ a = x ∨ a ∈ l := by
  induction l with
  | nil => simp [insertAsc]
  | cons h t ih =>
    simp only [insertAsc]
    by_cases hle : le h x = true
    · rw [if_pos hle]
      simp only [List.mem_cons, ih]
      tauto
    · rw [if_neg hle]
      simp only [List.mem_cons]

theorem insertAsc_perm (le : α → α → Bool) (x : α) (l : List α) :
    (insertAsc le x l).Perm (x :: l) := by
  induction l with
  | nil => simp [insertAsc]
  | cons h t ih =>
    simp only [insertAsc]
    by_cases hle : le h x = true
    · rw [if_pos hle]
      exact (ih.cons h).trans (List.Perm.swap x h t)
    · rw [if_neg hle]

theorem sortAsc_perm (le : α → α → Bool) (l : List α) : (sortAsc le l).Perm l := by
  induction l with
  | nil => simp [sortAsc]
  | cons x t ih =>
    have hstep : sortAsc le (x :: t) = insertAsc le x (sortAsc le t) := rfl
    rw [hstep]
    exact (insertAsc_perm le x (sortAsc le t)).trans (ih.cons x)

theorem insertAsc_sorted (le : α → α → Bool)
    (htrans : ∀ a b c, le a b = true → le b c = true → le a c = true)
    (htot : ∀ a b, le a b = true ∨ le b a = true) (x : α) (l : List α)
    (hl : l.Pairwise (fun a b => le a b = true)) :
    (insertAsc le x l).Pairwise (fun a b => le a b = true) := by
  induction l with
  | nil => simp [insertAsc]
  | cons h t ih =>
    rcases List.pairwise_cons.mp hl with ⟨hh, ht⟩
    simp only [insertAsc]
    by_cases hle : le h x = true
    · rw [if_pos hle]
      refine List.pairwise_cons.mpr ⟨?_, ih ht⟩
      intro b hb
      rcases (mem_insertAsc le x t b).mp hb with rfl | hb
      · exact hle
      · exact hh b hb
    · rw [if_neg hle]
      have hxh : le x h = true := (htot x h).resolve_right hle
      refine List.pairwise_cons.mpr ⟨?_, hl⟩
      intro b hb
      rcases List.mem_cons.mp hb with rfl | hb
      · exact hxh
      · exact htrans x h b hxh (hh b hb)

theorem sortAsc_sorted (le : α → α → Bool)
    (htrans : ∀ a b c, le a b = true → le b c = true → le a c = true)
    (htot : ∀ a b, le a b = true ∨ le b a = true) (l : List α) :
    (sortAsc le l).Pairwise (fun a b => le a b = true) := by
  induction l with
  | nil => simp [sortAsc]
  | cons x t ih =>
    have hstep : sortAsc le (x :: t) = insertAsc le x (sortAsc le t) := rfl
    rw [hstep]
    exact insertAsc_sorted le htrans htot x _ ih

theorem sortAsc_eq_of_perm (le : α → α → Bool)
    (htrans : ∀ a b c, le a b = true → le b c = true → le a c = true)
    (htot : ∀ a b, le a b = true ∨ le b a = true)
    (hanti : ∀ a b, le a b = true → le b a = true → a = b)
    {l1 l2 : List α} (h : l1.Perm l2) : sortAsc le l1 = sortAsc le l2 := by
  haveI : IsAntisymm α (fun a b => le a b = true) := ⟨hanti⟩
  have hperm : (sortAsc le l1).Perm (sortAsc le l2) :=
    ((sortAsc_perm le l1).trans h).trans (sortAsc_perm le l2).symm
  exact List.eq_of_perm_of_sorted hperm
    (sortAsc_sorted le htrans htot l1) (sortAsc_sorted le htrans htot l2)

theorem pairLe_trans (a b c : Event) (h1 : pairLe a b = true) (h2 : pairLe b c = true) :
    pairLe a c = true := by
  simp only [pairLe, decide_eq_true_eq] at h1 h2 ⊢
  omega

theorem pairLe_total (a b : Event) : pairLe a b = true ∨ pairLe b a = true := by
  simp only [pairLe, decide_eq_true_eq]
  omega

theorem pairLe_antisymm (a b : Event) (h1 : pairLe a b = true) (h2 : pairLe b a = true) :
    a = b := by
  simp only [pairLe, decide_eq_true_eq] at h1 h2
  rcases a with ⟨a1, a2⟩
  rcases b with ⟨b1, b2⟩
  simp only [Prod.mk.injEq]
  simp only at h1 h2
  omega

theorem natLe_trans (a b c : Nat) (h1 : natLe a b = true) (h2 : natLe b c = true) :
    natLe a c = true := by
  simp only [natLe, decide_eq_true_eq] at h1 h2 ⊢
  omega

theorem natLe_total (a b : Nat) : natLe a b = true ∨ natLe b a = true := by
  simp only [natLe, decide_eq_true_eq]
  omega

theorem mem_insertWDesc (x : Nat × Nat) (l : List (Nat × Nat)) (a : Nat × Nat) :
    a ∈ insertWDesc x l ↔ a = x ∨ a ∈ l := by
  induction l with
  | nil => simp [insertWDesc]
  | cons h t ih =>
    simp only [insertWDesc]
    by_cases hlt : x.2 < h.2
    · rw [if_pos hlt]
      simp only [List.mem_cons, ih]
      tauto
    · rw [if_neg hlt]
      simp only [List.mem_cons]

theorem insertWDesc_perm (x : Nat × Nat) (l : List (Nat × Nat)) :
    (insertWDesc x l).Perm (x :: l) := by
  induction l with
  | nil => simp [insertWDesc]
  | cons h t ih =>
    simp only [insertWDesc]
    by_cases hlt : x.2 < h.2
    · rw [if_pos hlt]
      exact (ih.cons h).trans (List.Perm.swap x h t)
    · rw [if_neg hlt]

theorem sortWDesc_perm (l : List (Nat × Nat)) : (sortWDesc l).Perm l := by
  induction l with
  | nil => simp [sortWDesc]
  | cons x t ih =>
    have hstep : sortWDesc (x :: t) = insertWDesc x (sortWDesc t) := rfl
    rw [hstep]
    exact (insertWDesc_perm x (sortWDesc t)).trans (ih.cons x)

theorem insertWDesc_topOrder {x : Nat × Nat} {l : List (Nat × Nat)}
    (hl : l.Pairwise topOrder) (hx : ∀ y ∈ l, x.1 < y.1) :
    (insertWDesc x l).Pairwise topOrder := by
  induction l with
  | nil => simp [insertWDesc]
  | cons h t ih =>
    rcases List.pairwise_cons.mp hl with ⟨hh, ht⟩
    simp only [insertWDesc]
    by_cases hlt : x.2 < h.2
    · rw [if_pos hlt]
      refine List.pairwise_cons.mpr
        ⟨?_, ih ht (fun y hy => hx y (List.mem_cons_of_mem h hy))⟩
      intro b hb
      rcases (mem_insertWDesc x t b).mp hb with rfl | hb
      · exact Or.inl hlt
      · exact hh b hb
    · rw [if_neg hlt]
      have hge : h.2 ≤ x.2 := Nat.le_of_not_lt hlt
      refine List.pairwise_cons.mpr ⟨?_, hl⟩
      intro b hb
      rcases List.mem_cons.mp hb with hbh | hbt
      · rw [hbh]
        rcases Nat.lt_or_ge h.2 x.2 with h2 | h2
        · exact Or.inl h2
        · exact Or.inr ⟨Nat.le_antisymm h2 hge,
            Nat.le_of_lt (hx h (List.mem_cons_self h t))⟩
      · have hxb1 : x.1 < b.1 := hx b (List.mem_cons_of_mem h hbt)
        rcases hh b hbt with h2 | ⟨h2, _⟩
        · exact Or.inl (Nat.lt_of_lt_of_le h2 hge)
        · rcases Nat.lt_or_ge b.2 x.2 with h3 | h3
          · exact Or.inl h3
          · exact Or.inr ⟨by omega, Nat.le_of_lt hxb1⟩

theorem sortWDesc_topOrder {l : List (Nat × Nat)}
    (hl : l.Pairwise (fun a b => a.1 < b.1)) :
    (sortWDesc l).Pairwise topOrder := by
  induction l with
  | nil => simp [sortWDesc]
  | cons x t ih =>
    rcases List.pairwise_cons.mp hl with ⟨hx, ht⟩
    have hstep : sortWDesc (x :: t) = insertWDesc x (sortWDesc t) := rfl
    rw [hstep]
    exact insertWDesc_topOrder (ih ht)
      (fun y hy => hx y ((sortWDesc_perm t).mem_iff.mp hy))

/-! ### Social graph lemmas -/

theorem countOcc_cons (e x : Event) (t : List Event) :
    countOcc e (x :: t) = (if x = e then 1 else 0) + countOcc e t := by
  simp only [countOcc, List.filter_cons]
  by_cases hxe : x = e
  · rw [if_pos (by simpa using hxe), if_pos hxe, List.length_cons]
    omega
  · rw [if_neg (by simpa using hxe), if_neg hxe]
    omega

theorem countOcc_eq_of_perm {l1 l2 : List Event} (h : l1.Perm l2) (e : Event) :
    countOcc e l1 = countOcc e l2 :=
  (h.filter (fun x => x = e)).length_eq

theorem sum_map_add (f g : α → Nat) (K : List α) :
    (K.map (fun e => f e + g e)).sum = (K.map f).sum + (K.map g).sum := by
  induction K with
  | nil => rfl
  | cons a K ih =>
    simp only [List.map_cons, List.sum_cons, ih]
    omega

theorem sum_map_indicator_zero (x : Event) (K : List Event) (hx : x ∉ K) :
    (K.map (fun e => if x = e then 1 else 0)).sum = 0 := by
  induction K with
  | nil => rfl
  | cons a K ih =>
    have hxa : ¬(x = a) := fun h => hx (by rw [h]; exact List.mem_cons_self a K)
    have hxK : x ∉ K := fun h => hx (List.mem_cons_of_mem a h)
    simp only [List.map_cons, List.sum_cons]
    rw [if_neg hxa, ih hxK]

theorem sum_map_indicator_one (x : Event) (K : List Event)
    (hK : K.Nodup) (hx : x ∈ K) :
    (K.map (fun e => if x = e then 1 else 0)).sum = 1 := by
  induction K with
  | nil => cases hx
  | cons a K ih =>
    rcases List.pairwise_cons.mp hK with ⟨hha, hKK⟩
    simp only [List.map_cons, List.sum_cons]
    rcases List.mem_cons.mp hx with hxa | hxK
    · have hnotK : x ∉ K := fun hmem => (hha x hmem) hxa.symm
      rw [if_pos hxa, sum_map_indicator_zero x K hnotK]
    · have hne : ¬(x = a) := fun h => (hha x hxK) h.symm
      rw [if_neg hne, ih hKK hxK]

theorem sum_countOcc_nodup (l : List Event) :
    ∀ K : List Event, K.Nodup → (∀ e ∈ l, e ∈ K) →
      (K.map (fun e => countOcc e l)).sum = l.length := by
  induction l with
  | nil =>
    intro K _ _
    refine List.sum_eq_zero ?_
    intro n hn
    rcases List.mem_map.mp hn with ⟨e, _, he⟩
    rw [← he]
    rfl
  | cons x t ih =>
    intro K hK hmem
    have hx : x ∈ K := hmem x (List.mem_cons_self x t)
    have hrw : K.map (fun e => countOcc e (x :: t)) =
        K.map (fun e => (if x = e then 1 else 0) + countOcc e t) :=
      List.map_congr_left (fun e _ => countOcc_cons e x t)
    rw [hrw]
    rw [sum_map_add (fun e => if x = e then 1 else 0) (fun e => countOcc e t) K]
    rw [sum_map_indicator_one x K hK hx]
    rw [ih K hK (fun e he => hmem e (List.mem_cons_of_mem x he))]
    simp [Nat.add_comm]

theorem mem_edgesWithFrequency (events : List Event) (p q w : Nat) :
    (p, q, w) ∈ edgesWithFrequency events ↔
      ((p, q) ∈ events ∧ w = countOcc (p, q) events) := by
  unfold edgesWithFrequency
  constructor
  · intro h
    rcases List.mem_map.mp h with ⟨k, hk, hkeq⟩
    have hk2 : k ∈ events := List.mem_dedup.mp ((sortAsc_perm pairLe _).mem_iff.mp hk)
    have h1 : k.1 = p := congrArg (fun z => z.1) hkeq
    have h2 : k.2 = q := congrArg (fun z => z.2.1) hkeq
    have h3 : countOcc k events = w := congrArg (fun z => z.2.2) hkeq
    have hkpq : k = (p, q) := Prod.ext h1 h2
    rw [hkpq] at hk2 h3
    exact ⟨hk2, h3.symm⟩
  · rintro ⟨hmem, hw⟩
    refine List.mem_map.mpr ⟨(p, q), ?_, ?_⟩
    · exact (sortAsc_perm pairLe _).mem_iff.mpr (List.mem_dedup.mpr hmem)
    · rw [hw]

theorem participantInteractions_pairwise (events : List Event) :
    (participantInteractions events).Pairwise (fun a b => a.1 < b.1) := by
  unfold participantInteractions
  have hsorted := sortAsc_sorted natLe natLe_trans natLe_total
    ((edgesWithFrequency events).map (fun e => e.1)).dedup
  have hnodup :
      (sortAsc natLe ((edgesWithFrequency events).map (fun e => e.1)).dedup).Nodup :=
    (sortAsc_perm natLe _).nodup_iff.mpr (List.nodup_dedup _)
  have hkeys :
      (sortAsc natLe ((edgesWithFrequency events).map (fun e => e.1)).dedup).Pairwise
        (fun a b => a < b) :=
    (hsorted.and hnodup).imp (fun h => by
      rcases h with ⟨hle, hne⟩
      simp only [natLe, decide_eq_true_eq] at hle
      omega)
  exact List.Pairwise.map _ (fun a b h => h) hkeys

theorem edgesWithFrequency_eq_of_perm {l1 l2 : List Event} (h : l1.Perm l2) :
    edgesWithFrequency l1 = edgesWithFrequency l2 := by
  unfold edgesWithFrequency
  rw [sortAsc_eq_of_perm pairLe pairLe_trans pairLe_total pairLe_antisymm h.dedup]
  exact List.map_congr_left (fun e _ => by rw [countOcc_eq_of_perm h])

theorem participantInteractions_eq_of_perm {l1 l2 : List Event} (h : l1.Perm l2) :
    participantInteractions l1 = participantInteractions l2 := by
  unfold participantInteractions outWeight
  rw [edgesWithFrequency_eq_of_perm h]

/-! ### C3, C6, C10 -/

/-- C3. The social-graph construction: `edgesWithFrequency` holds one
row per (from, to) pair occurring in the events with its occurrence
count as weight; `topParticipants` selects at most 10 participants;
`filteredEdges` keeps exactly the aggregated edges that touch a top
participant and weigh strictly more than 200 (so an edge of weight 300
between two non-top participants is excluded); and the node set is
exactly the endpoints of the surviving edges. -/
theorem C3_social_graph_construction (events : List Event) :
    (∀ p q w, (p, q, w) ∈ edgesWithFrequency events ↔
      ((p, q) ∈ events ∧ w = countOcc (p, q) events)) ∧
    (topParticipants events).length ≤ 10 ∧
    (∀ e, e ∈ filteredEdges events ↔
      (e ∈ edgesWithFrequency events ∧
        (e.1 ∈ topParticipants events ∨ e.2.1 ∈ topParticipants events) ∧
        200 < e.2.2)) ∧
    (∀ n, n ∈ nodes events ↔
      ∃ e, e ∈ filteredEdges events ∧ (n = e.1 ∨ n = e.2.1)) := by
  refine ⟨mem_edgesWithFrequency events, ?_, ?_, ?_⟩
  · simp only [topParticipants, List.length_map, List.length_take]
    exact Nat.min_le_left _ _
  · intro e
    simp only [filteredEdges, List.mem_filter, decide_eq_true_eq]
    tauto
  · intro n
    simp only [nodes, Finset.mem_union, List.mem_toFinset, List.mem_map]
    constructor
    · rintro (⟨e, he, heq⟩ | ⟨e, he, heq⟩)
      · exact ⟨e, he, Or.inl heq.symm⟩
      · exact ⟨e, he, Or.inr heq.symm⟩
    · rintro ⟨e, he, heq | heq⟩
      · exact Or.inl ⟨e, he, heq.symm⟩
      · exact Or.inr ⟨e, he, heq.symm⟩

/-- C6. The row list that the top-10 selection truncates is sorted by
the total order "heavier first, ties by ascending participant id"
(`topOrder`), the selection is its first 10 participant ids, and the
selection is invariant under any reordering of the input event table:
the selected set is deterministic. -/
theorem C6_top10_selection_deterministic (events : List Event) :
    (sortWDesc (participantInteractions events)).Pairwise topOrder ∧
    topParticipants events =
      ((sortWDesc (participantInteractions events)).take 10).map (fun x => x.1) ∧
    ∀ events2, events.Perm events2 → topParticipants events = topParticipants events2 := by
  refine ⟨sortWDesc_topOrder (participantInteractions_pairwise events), rfl, ?_⟩
  intro events2 h
  unfold topParticipants
  rw [participantInteractions_eq_of_perm h]

/-- C6 witness: two orderings of the same concrete event table select
the same top participants. -/
theorem C6_top10_selection_deterministic_witness :
    ([((1 : Nat), (2 : Nat)), (3, 4)].Perm [(3, 4), (1, 2)]) ∧
    topParticipants [(1, 2), (3, 4)] = topParticipants [(3, 4), (1, 2)] :=
  ⟨by decide,
   (C6_top10_selection_deterministic [(1, 2), (3, 4)]).2.2 [(3, 4), (1, 2)] (by decide)⟩

/-- C10. Count conservation of the social-graph aggregation: the edge
weights sum to the total number of communication events, and a row
`(p, w)` appears in the per-participant totals exactly when `p` sends
at least one event and `w` is the sum of the weights of the aggregated
edges leaving `p`. -/
theorem C10_count_conservation (events : List Event) :
    (((edgesWithFrequency events).map (fun e => e.2.2)).sum = events.length) ∧
    (∀ p w, (p, w) ∈ participantInteractions events ↔
      ((∃ q, (p, q) ∈ events) ∧
        w = (((edgesWithFrequency events).filter (fun e => e.1 = p)).map
              (fun e => e.2.2)).sum)) := by
  constructor
  · unfold edgesWithFrequency
    rw [List.map_map]
    have hcomp :
        ((fun e : Nat × Nat × Nat => e.2.2) ∘
          (fun e : Event => (e.1, e.2, countOcc e events))) =
        fun e : Event => countOcc e events := rfl
    rw [hcomp]
    rw [List.Perm.sum_eq ((sortAsc_perm pairLe events.dedup).map _)]
    exact sum_countOcc_nodup events events.dedup (List.nodup_dedup events)
      (fun e he => List.mem_dedup.mpr he)
  · intro p w
    unfold participantInteractions
    constructor
    · intro h
      rcases List.mem_map.mp h with ⟨k, hk, hkeq⟩
      have h1 : k = p := congrArg (fun z => z.1) hkeq
      have h2 : outWeight events k = w := congrArg (fun z => z.2) hkeq
      rw [h1] at hk h2
      have hk2 : p ∈ (edgesWithFrequency events).map (fun e => e.1) :=
        List.mem_dedup.mp ((sortAsc_perm natLe _).mem_iff.mp hk)
      rcases List.mem_map.mp hk2 with ⟨e, he, heq⟩
      rcases e with ⟨p1, q1, w1⟩
      have hpq : (p1, q1) ∈ events :=
        ((mem_edgesWithFrequency events p1 q1 w1).mp he).1
      simp only at heq
      rw [heq] at hpq
      exact ⟨⟨q1, hpq⟩, by rw [← h2]; rfl⟩
    · rintro ⟨⟨q, hq⟩, hw⟩
      refine List.mem_map.mpr ⟨p, ?_, ?_⟩
      · refine (sortAsc_perm natLe _).mem_iff.mpr (List.mem_dedup.mpr ?_)
        refine List.mem_map.mpr ⟨(p, q, countOcc (p, q) events), ?_, rfl⟩
        exact (mem_edgesWithFrequency events p q _).mpr ⟨hq, rfl⟩
      · rw [hw]; rfl

/-! ### C4: building location parsing -/

theorem parseFloatCore_chars {cs : List Char} {mv : Nat × Nat}
    (h : parseFloatCore cs = some mv) :
    (∀ c ∈ cs, c = '.' ∨ c.isDigit = true) ∧ cs ≠ [] := by
  unfold parseFloatCore at h
  split at h
  · rename_i hsplit
    have hcs : cs.takeWhile Char.isDigit = cs := by
      have happ := List.takeWhile_append_dropWhile Char.isDigit cs
      rw [hsplit, List.append_nil] at happ
      exact happ
    split at h
    · cases h
    · rename_i hne
      constructor
      · intro c hc
        rw [← hcs] at hc
        exact Or.inr (List.mem_takeWhile_imp hc)
      · intro hnil
        subst hnil
        simp at hne
  · rename_i c fpart hsplit
    split at h
    · rename_i hcond
      have hcs : cs = cs.takeWhile Char.isDigit ++ c :: fpart := by
        rw [← hsplit]
        exact (List.takeWhile_append_dropWhile _ _).symm
      constructor
      · intro a ha
        rw [hcs] at ha
        rcases List.mem_append.mp ha with ha | ha
        · exact Or.inr (List.mem_takeWhile_imp ha)
        · rcases List.mem_cons.mp ha with ha | ha
          · rw [ha, hcond.1]
            exact Or.inl rfl
          · exact Or.inr (List.all_eq_true.mp hcond.2.1 a ha)
      · intro hnil
        rw [hnil] at hcs
        simp at hcs
    · cases h

theorem parseFloat_chars {cs : List Char} {v : FixedDec}
    (h : parseFloat cs = some v) :
    (∀ c ∈ cs, isFloatChar c = true) ∧ cs ≠ [] := by
  cases cs with
  | nil => simp [parseFloat] at h
  | cons c rest =>
    refine ⟨?_, by simp⟩
    have hstep : parseFloat (c :: rest) =
        (if c = '-' then (parseFloatCore rest).map (fun mv => ⟨-(mv.1 : Int), mv.2⟩)
         else (parseFloatCore (c :: rest)).map (fun mv => ⟨(mv.1 : Int), mv.2⟩)) := rfl
    rw [hstep] at h
    by_cases hc : c = '-'
    · rw [if_pos hc] at h
      rcases Option.map_eq_some'.mp h with ⟨mv, hmv, _⟩
      have hcore := parseFloatCore_chars hmv
      intro a ha
      rcases List.mem_cons.mp ha with ha | ha
      · rw [ha, hc]; decide
      · rcases hcore.1 a ha with h1 | h1
        · rw [h1]; decide
        · simp [isFloatChar, h1]
    · rw [if_neg hc] at h
      rcases Option.map_eq_some'.mp h with ⟨mv, hmv, _⟩
      have hcore := parseFloatCore_chars hmv
      intro a ha
      rcases hcore.1 a ha with h1 | h1
      · rw [h1]; decide
      · simp [isFloatChar, h1]

theorem floatChar_not_strip {c : Char} (hc : isFloatChar c = true) : c ∉ stripSet := by
  intro hmem
  have hs : stripSet = ['P', 'O', 'I', 'N', 'T', ' ', '(', ')'] := by decide
  rw [hs] at hmem
  fin_cases hmem <;> exact absurd hc (by decide)

theorem dropWhile_stripSet_cons_mem {c : Char} (hc : c ∈ stripSet) (l : List Char) :
    (c :: l).dropWhile (fun c => decide (c ∈ stripSet)) =
      l.dropWhile (fun c => decide (c ∈ stripSet)) := by
  rw [List.dropWhile_cons, if_pos (by simpa using hc)]

theorem dropWhile_stripSet_cons_not {c : Char} (hc : c ∉ stripSet) (l : List Char) :
    (c :: l).dropWhile (fun c => decide (c ∈ stripSet)) = c :: l := by
  rw [List.dropWhile_cons, if_neg (by simpa using hc)]

theorem dropWhile_stripSet_wrapper (X : List Char) :
    ('P' :: 'O' :: 'I' :: 'N' :: 'T' :: ' ' :: '(' :: X).dropWhile
      (fun c => decide (c ∈ stripSet)) = X.dropWhile (fun c => decide (c ∈ stripSet)) := by
  rw [dropWhile_stripSet_cons_mem (show 'P' ∈ stripSet by decide)]
  rw [dropWhile_stripSet_cons_mem (show 'O' ∈ stripSet by decide)]
  rw [dropWhile_stripSet_cons_mem (show 'I' ∈ stripSet by decide)]
  rw [dropWhile_stripSet_cons_mem (show 'N' ∈ stripSet by decide)]
  rw [dropWhile_stripSet_cons_mem (show 'T' ∈ stripSet by decide)]
  rw [dropWhile_stripSet_cons_mem (show ' ' ∈ stripSet by decide)]
  rw [dropWhile_stripSet_cons_mem (show '(' ∈ stripSet by decide)]

theorem pyStrip_wrapper {sx sy : List Char}
    (hsx : ∀ c ∈ sx, isFloatChar c = true) (hsy : ∀ c ∈ sy, isFloatChar c = true)
    (hnx : sx ≠ []) (hny : sy ≠ []) :
    pyStrip stripSet ("POINT (".toList ++ sx ++ ' ' :: sy ++ [')']) = sx ++ ' ' :: sy := by
  obtain ⟨cx, sx1, rfl⟩ : ∃ c t, sx = c :: t := by
    cases sx with
    | nil => cases hnx rfl
    | cons a t => exact ⟨a, t, rfl⟩
  obtain ⟨d, r, hrevsy⟩ : ∃ d r, sy.reverse = d :: r := by
    cases hsyr : sy.reverse with
    | nil => exact absurd (by simpa using congrArg List.reverse hsyr) hny
    | cons d r => exact ⟨d, r, rfl⟩
  have hd : d ∈ sy := List.mem_reverse.mp (by rw [hrevsy]; exact List.mem_cons_self d r)
  have hpre : "POINT (".toList ++ (cx :: sx1) ++ ' ' :: sy ++ [')'] =
      'P' :: 'O' :: 'I' :: 'N' :: 'T' :: ' ' :: '(' :: ((cx :: sx1) ++ ' ' :: sy ++ [')']) := by
    have hlit : "POINT (".toList = ['P', 'O', 'I', 'N', 'T', ' ', '('] := by decide
    rw [hlit]
    rfl
  unfold pyStrip
  rw [hpre, dropWhile_stripSet_wrapper]
  rw [show ((cx :: sx1) ++ ' ' :: sy ++ [')']) = cx :: (sx1 ++ ' ' :: sy ++ [')']) from rfl]
  rw [dropWhile_stripSet_cons_not
        (floatChar_not_strip (hsx cx (List.mem_cons_self cx sx1)))]
  have hrev2 : (cx :: (sx1 ++ ' ' :: sy ++ [')'])).reverse =
      ')' :: (sy.reverse ++ ' ' :: (cx :: sx1).reverse) := by
    simp
  rw [hrev2, dropWhile_stripSet_cons_mem (show ')' ∈ stripSet by decide)]
  rw [hrevsy]
  rw [show ((d :: r) ++ ' ' :: (cx :: sx1).reverse) =
        d :: (r ++ ' ' :: (cx :: sx1).reverse) from rfl]
  rw [dropWhile_stripSet_cons_not (floatChar_not_strip (hsy d hd))]
  rw [show (d :: (r ++ ' ' :: (cx :: sx1).reverse)) =
        (d :: r) ++ ' ' :: (cx :: sx1).reverse from rfl]
  rw [← hrevsy]
  simp

theorem splitOnChar_no_sep (sep : Char) (cs : List Char) (h : ∀ c ∈ cs, c ≠ sep) :
    splitOnChar sep cs = [cs] := by
  induction cs with
  | nil => rfl
  | cons c t ih =>
    have hstep : splitOnChar sep (c :: t) =
        (if c = sep then [] :: splitOnChar sep t
         else
           match splitOnChar sep t with
           | t1 :: ts => (c :: t1) :: ts
           | [] => [[c]]) := rfl
    rw [hstep, if_neg (h c (List.mem_cons_self c t)),
        ih (fun a ha => h a (List.mem_cons_of_mem c ha))]

theorem splitOnChar_sep_append (sep : Char) (xs ys : List Char)
    (h : ∀ c ∈ xs, c ≠ sep) :
    splitOnChar sep (xs ++ sep :: ys) = xs :: splitOnChar sep ys := by
  induction xs with
  | nil =>
    have hstep : splitOnChar sep (sep :: ys) =
        (if sep = sep then [] :: splitOnChar sep ys
         else
           match splitOnChar sep ys with
           | t1 :: ts => (sep :: t1) :: ts
           | [] => [[sep]]) := rfl
    rw [List.nil_append, hstep, if_pos rfl]
  | cons x xs ih =>
    have hstep : splitOnChar sep ((x :: xs) ++ sep :: ys) =
        (if x = sep then [] :: splitOnChar sep (xs ++ sep :: ys)
         else
           match splitOnChar sep (xs ++ sep :: ys) with
           | t1 :: ts => (x :: t1) :: ts
           | [] => [[x]]) := rfl
    rw [hstep, if_neg (h x (List.mem_cons_self x xs)),
        ih (fun a ha => h a (List.mem_cons_of_mem x ha))]

theorem locToks_wrapper {sx sy : List Char} {vx vy : FixedDec}
    (hx : parseFloat sx = some vx) (hy : parseFloat sy = some vy) :
    locToks (pointWrapper sx sy) = [sx, sy] := by
  have hcx := parseFloat_chars hx
  have hcy := parseFloat_chars hy
  have hspace : ∀ (l : List Char), (∀ c ∈ l, isFloatChar c = true) →
      ∀ c ∈ l, c ≠ ' ' := by
    intro l hl c hc heq
    have := hl c hc
    rw [heq] at this
    exact absurd this (by decide)
  have htl : (pointWrapper sx sy).toList =
      "POINT (".toList ++ sx ++ ' ' :: sy ++ [')'] := rfl
  unfold locToks
  rw [htl, pyStrip_wrapper hcx.1 hcy.1 hcx.2 hcy.2,
      splitOnChar_sep_append ' ' sx sy (hspace sx hcx.1),
      splitOnChar_no_sep ' ' sy (hspace sy hcy.1)]

/-- C4 (amended). Every well-formed location string
`POINT (<xtok> <ytok>)` whose two coordinate tokens parse as decimal
floats yields, through each of the four building tables, the row
`{x, y, buildingType}` with the parsed coordinates and the tag of its
source table; and the spec example `"POINT (bad)"` is a fatal parse
error, because its single token fails float parsing. -/
theorem C4_building_location_rows (sx sy : List Char) (vx vy : FixedDec)
    (hx : parseFloat sx = some vx) (hy : parseFloat sy = some vy) :
    finalDf [pointWrapper sx sy] [] [] [] =
      Except.ok [BuildingRow.mk (some vx) (some vy) "apartment"] ∧
    finalDf [] [pointWrapper sx sy] [] [] =
      Except.ok [BuildingRow.mk (some vx) (some vy) "pub"] ∧
    finalDf [] [] [pointWrapper sx sy] [] =
      Except.ok [BuildingRow.mk (some vx) (some vy) "restaurant"] ∧
    finalDf [] [] [] [pointWrapper sx sy] =
      Except.ok [BuildingRow.mk (some vx) (some vy) "school"] ∧
    finalDf [] ["POINT (bad)"] [] [] = Except.error () := by
  have htoks := locToks_wrapper hx hy
  have h0 : astypeFloatTok [sx, sy] 0 = Except.ok (some vx) := by
    simp [astypeFloatTok, hx]
  have h1 : astypeFloatTok [sx, sy] 1 = Except.ok (some vy) := by
    simp [astypeFloatTok, hy]
  refine ⟨?_, ?_, ?_, ?_, rfl⟩ <;>
  · simp [finalDf, combinedTagged, htoks, exceptMapAll, h0, h1]
    rfl

/-- C4 counterexample to the claim as stated: a wrong token count is
not by itself a fatal parse error — three tokens parse fine with the
third ignored, and a single numeric token yields a null y coordinate
instead of raising. -/
theorem C4_wrong_token_count_not_fatal :
    finalDf [] ["POINT (1 2 3)"] [] [] =
      Except.ok [BuildingRow.mk (some ⟨1, 0⟩) (some ⟨2, 0⟩) "pub"] ∧
    finalDf [] ["POINT (5)"] [] [] =
      Except.ok [BuildingRow.mk (some ⟨5, 0⟩) none "pub"] :=
  ⟨rfl, rfl⟩

/-- C4 witness: the spec example `"POINT (12.5 7.25)"` tagged `"pub"`
yields `{x: 12.5, y: 7.25, buildingType: "pub"}` (12.5 and 7.25 as the
exact scaled decimals 125/10 and 725/100). -/
theorem C4_building_location_rows_witness :
    parseFloat "12.5".toList = some ⟨125, 1⟩ ∧
    parseFloat "7.25".toList = some ⟨725, 2⟩ ∧
    finalDf [] [pointWrapper "12.5".toList "7.25".toList] [] [] =
      Except.ok [BuildingRow.mk (some ⟨125, 1⟩) (some ⟨725, 2⟩) "pub"] :=
  ⟨rfl, rfl,
   (C4_building_location_rows "12.5".toList "7.25".toList ⟨125, 1⟩ ⟨725, 2⟩
     rfl rfl).2.1⟩

/-! ### C5: snapshot round-trip -/

theorem dtypeOfCode_dtypeCode (dt : Dtype) : dtypeOfCode (dtypeCode dt) = some dt := by
  cases dt <;> rfl

theorem decodeValue_encodeValue (v : CellValue) (r : List Token) :
    decodeValue (encodeValue v ++ r) = some (v, r) := by
  cases v with
  | vNull => rfl
  | vInt z => rfl
  | vStr s => rfl
  | vDT d => rfl
  | vBool b => cases b <;> rfl

theorem decodeValues_encodeValues (vs : List CellValue) (r : List Token) :
    decodeValues vs.length (encodeValues vs ++ r) = some (vs, r) := by
  induction vs with
  | nil => rfl
  | cons v vs ih =>
    have happ : encodeValues (v :: vs) ++ r = encodeValue v ++ (encodeValues vs ++ r) := by
      rw [show encodeValues (v :: vs) = encodeValue v ++ encodeValues vs from rfl,
          List.append_assoc]
    rw [List.length_cons, happ]
    show (decodeValue (encodeValue v ++ (encodeValues vs ++ r))).bind _ = _
    rw [decodeValue_encodeValue]
    show (decodeValues vs.length (encodeValues vs ++ r)).map _ = _
    rw [ih]
    rfl

theorem decodeRows_encodeRows (rs : List (List CellValue)) (r : List Token) :
    decodeRows rs.length (encodeRows rs ++ r) = some (rs, r) := by
  induction rs with
  | nil => rfl
  | cons row rs ih =>
    have happ : encodeRows (row :: rs) ++ r =
        Token.tN row.length :: (encodeValues row ++ (encodeRows rs ++ r)) := by
      rw [show encodeRows (row :: rs) =
            Token.tN row.length :: (encodeValues row ++ encodeRows rs) from rfl,
          List.cons_append, List.append_assoc]
    rw [List.length_cons, happ]
    show (decodeValues row.length (encodeValues row ++ (encodeRows rs ++ r))).bind _ = _
    rw [decodeValues_encodeValues]
    show (decodeRows rs.length (encodeRows rs ++ r)).map _ = _
    rw [ih]
    rfl

theorem decodeCols_encodeCols (cs : List (String × Dtype)) (r : List Token) :
    decodeCols cs.length (encodeCols cs ++ r) = some (cs, r) := by
  induction cs with
  | nil => rfl
  | cons c cs ih =>
    have happ : encodeCols (c :: cs) ++ r =
        Token.tS c.1 :: Token.tN (dtypeCode c.2) :: (encodeCols cs ++ r) := by
      rw [show encodeCols (c :: cs) =
            Token.tS c.1 :: Token.tN (dtypeCode c.2) :: encodeCols cs from rfl,
          List.cons_append, List.cons_append]
    rw [List.length_cons, happ]
    show (dtypeOfCode (dtypeCode c.2)).bind _ = _
    rw [dtypeOfCode_dtypeCode]
    show (decodeCols cs.length (encodeCols cs ++ r)).map _ = _
    rw [ih]
    rfl

/-- C5. Snapshot round-trip: serializing any in-memory table to a
cache snapshot and reading it back yields exactly the original table —
same column order, same column dtypes (datetime included) and same row
values. -/
theorem C5_snapshot_roundtrip (t : PickledTable) :
    readSnapshot (writeSnapshot t) = some t := by
  rcases t with ⟨cols, rows⟩
  show (decodeCols cols.length
      (encodeCols cols ++ Token.tN rows.length :: encodeRows rows)).bind _ = _
  rw [decodeCols_encodeCols]
  show (decodeRows rows.length (encodeRows rows)).bind _ = _
  rw [show encodeRows rows = encodeRows rows ++ [] by rw [List.append_nil],
      decodeRows_encodeRows]
  rfl
